import Mathlib

/-!
Verification development for the batched RAG engine in `utils/rag_basic.py`
(class `BatchedRAG` and the module-level API `retrieve` / `is_ready` /
`get_build_status`).

Modelling conventions:
* Python strings are modelled as `List Char`; `str.split()` (split on
  whitespace runs, dropping empties) is `words`, `" ".join` is `joinSp`,
  `str.strip()` is `pyStrip`.  Whitespace is the ASCII set recognised by
  `Char.isWhitespace`.
* Python `range(0, n, step)` is `rangeStep n step`; `range(0, n, 0)` raises
  `ValueError` in Python, so `rangeStep` is only ever used with `step ≥ 1`
  and returns `[]` at `step = 0`.
* `math.ceil(a / b)` on naturals is the exact ceiling `ceilDiv a b`
  (`b = 0` raises `ZeroDivisionError` in Python; theorems assume `0 < b`).
-/

/-- ASCII whitespace test used to model Python `str.split()` / `str.strip()`. -/
def isWs (c : Char) : Bool := c.isWhitespace

/-- Accumulator version of Python `str.split()`: walk the characters,
collecting the current word in reverse in `acc`. -/
def wordsAux : List Char → List Char → List (List Char)
  | [], acc => if acc.isEmpty then [] else [acc.reverse]
  | c :: cs, acc =>
    if isWs c then
      (if acc.isEmpty then wordsAux cs [] else acc.reverse :: wordsAux cs [])
    else wordsAux cs (c :: acc)

/-- Python `text.split()`: maximal runs of non-whitespace characters. -/
def words (s : List Char) : List (List Char) := wordsAux s []

/-- Python `" ".join(ws)`. -/
def joinSp : List (List Char) → List Char
  | [] => []
  | [w] => w
  | w :: ws => w ++ ' ' :: joinSp ws

/-- Python `s.strip()`: drop whitespace from both ends. -/
def pyStrip (s : List Char) : List Char :=
  ((s.dropWhile isWs).reverse.dropWhile isWs).reverse

/-- Exact ceiling division, modelling `math.ceil(a / b)` for `b > 0`. -/
def ceilDiv (a b : Nat) : Nat := (a + b - 1) / b

/-- Python `range(0, n, step)` (the start indices of the slices taken by
`chunk_text` and `process_batch_embeddings`).  `step = 0` raises in Python;
here it returns `[]` and is never used. -/
def rangeStep (n step : Nat) : List Nat :=
  if step = 0 then [] else (List.range (ceilDiv n step)).map (· * step)

/-- `BatchedRAG.chunk_text` (rag_basic.py lines 86-96): split `text` into
words, join consecutive groups of `max_words` words with single spaces, and
keep only the stripped chunks longer than 50 characters. -/
def chunk_text (text : List Char) (max_words : Nat) : List (List Char) :=
  let ws := words text
  ((rangeStep ws.length max_words).map
      (fun i => pyStrip (joinSp ((ws.drop i).take max_words)))).filter
    (fun c => 50 < c.length)

example : words "  a  bb ".toList = ["a".toList, "bb".toList] := by decide
example : joinSp ["a".toList, "bb".toList] = "a bb".toList := by decide
example : pyStrip "  ab ".toList = "ab".toList := by decide
example : rangeStep 402 400 = [0, 400] := by decide
example : chunk_text "hi".toList 500 = [] := by decide
example : chunk_text (List.replicate 60 'a') 500 = [List.replicate 60 'a'] := by
  decide

/-!
## JSON values and the record normalizer

`extract_text_from_json_line` (rag_basic.py lines 98-119) recursively sniffs
text-bearing fields out of an arbitrary parsed JSON value.  JSON is modelled
as a mutual inductive family so that the extraction functions are structural
(and therefore evaluate inside `decide`).
-/

mutual
inductive Json where
  | str (s : List Char)
  | num (n : Int)
  | boolean (b : Bool)
  | null
  | arr (items : JsonSeq)
  | obj (fields : JsonMap)
inductive JsonSeq where
  | nil
  | cons (hd : Json) (tl : JsonSeq)
inductive JsonMap where
  | nil
  | cons (key : List Char) (val : Json) (tl : JsonMap)
end

/-- The fixed list of recognised text-bearing field names. -/
def text_fields : List (List Char) :=
  ["text".toList, "content".toList, "message".toList, "body".toList,
   "description".toList, "title".toList, "question".toList, "answer".toList]

/-- The dotted-path label for a list item: `pre` followed by the rendering of
Python `f"[i]."`. -/
def itemPre (pre : List Char) (i : Nat) : List Char :=
  pre ++ '[' :: (Nat.repr i).toList ++ "].".toList

/-- The context label prepended to a matched field: Python
`f"[pre+key] "` when `pre` is nonempty or the key is not exactly `text`,
else the empty string. -/
def fieldContext (pre k : List Char) : List Char :=
  if pre ≠ [] ∨ k ≠ "text".toList then '[' :: (pre ++ k) ++ "] ".toList else []

mutual
/-- The dict arm of `extract_from_obj`: for each key/value pair, a string
value under a recognised (lower-cased) key whose stripped length exceeds 20
contributes one labelled text; dict/list values are recursed into with an
extended dotted prefix; other values contribute nothing. -/
def extractFields : JsonMap → List Char → List (List Char)
  | .nil, _ => []
  | .cons k (.str s) tl, pre =>
    (if (k.map Char.toLower) ∈ text_fields ∧ 20 < (pyStrip s).length then
       [fieldContext pre k ++ pyStrip s]
     else []) ++ extractFields tl pre
  | .cons k (.obj o) tl, pre =>
    extractFields o (pre ++ k ++ ".".toList) ++ extractFields tl pre
  | .cons k (.arr a) tl, pre =>
    extractItems a (pre ++ k ++ ".".toList) 0 ++ extractFields tl pre
  | .cons _ _ tl, pre => extractFields tl pre

/-- The list arm of `extract_from_obj`: dict/list items are recursed into
with an indexed prefix; string items longer than 20 characters (stripped)
are collected unlabelled; other items contribute nothing. -/
def extractItems : JsonSeq → List Char → Nat → List (List Char)
  | .nil, _, _ => []
  | .cons (.obj o) tl, pre, i =>
    extractFields o (itemPre pre i) ++ extractItems tl pre (i + 1)
  | .cons (.arr a) tl, pre, i =>
    extractItems a (itemPre pre i) 0 ++ extractItems tl pre (i + 1)
  | .cons (.str s) tl, pre, i =>
    (if 20 < (pyStrip s).length then [pyStrip s] else []) ++
      extractItems tl pre (i + 1)
  | .cons _ tl, pre, i => extractItems tl pre (i + 1)
end

/-- `extract_from_obj(json_obj, "")` applied to the whole line: scalars at
top level contribute nothing. -/
def extract_texts : Json → List (List Char)
  | .obj fields => extractFields fields []
  | .arr items => extractItems items [] 0
  | _ => []

/-- `BatchedRAG.extract_text_from_json_line`: the collected texts joined by
single spaces, or the empty string when nothing qualified. -/
def extract_text_from_json_line (j : Json) : List Char :=
  let ts := extract_texts j
  if ts.isEmpty then [] else joinSp ts

example :
    extract_text_from_json_line (.obj (.cons "content".toList (.str "short".toList) .nil)) = [] := by
  decide
example :
    extract_text_from_json_line
        (.obj (.cons "content".toList (.str (List.replicate 30 'a')) .nil)) =
      "[content] ".toList ++ List.replicate 30 'a' := by
  decide

/-!
## Chunks, embeddings, disk state

Embedding vectors are modelled as lists of rationals (the finite-precision
floats returned by the embedding service).  The external OpenAI calls are
modelled as pure functions returning `Option` (`none` = the call raised).
The on-disk layout (progress file, per-batch chunk file
`batch_{b}.json`, per-sub-batch embedding files `embeddings_{b}_{s}.pkl`)
is the `Disk` structure; a batch's sub-batch files are a finite array of
`SubSlot`s recording, for each sub-batch index, whether the embeddings file
exists and whether each of the two reads the assembler performs on the pair
succeeds or raises.  The nondeterministic `created_at` timestamp of a chunk
is not modelled (no claim mentions it).
-/

abbrev Vec := List ℚ

/-- The degenerate embedding `[0.0] * 1536` returned on failure. -/
def zeroVec : Vec := List.replicate 1536 0

/-- `BatchedRAG.create_embedding` (lines 183-193): the service result, or the
zero vector when the call raises. -/
def create_embedding (svc : List Char → Option Vec) (t : List Char) : Vec :=
  (svc t).getD zeroVec

structure Chunk where
  id : Nat
  text : List Char
  source : Nat
  batch : Nat
deriving DecidableEq

/-- One embedding sub-batch as produced in memory by
`process_batch_embeddings`: the vectors together with the chunk-id list that
`save_embedding_batch` writes beside them. -/
abbrev SubFile := List Vec × List Nat

/-- The on-disk state of one embedding sub-batch index `s` of a batch `b`.
`none`: the file `embeddings_b_s.pkl` does not exist — the only existence
the reader checks (line 312).  `some (pkl, idx)`: the file exists, `pkl` is
the outcome of `pickle.load` on it (`.error` = the file is truncated or
corrupt, so the load raises), and `idx` is the outcome of opening and
`json.load`-ing `indices_b_s.json` (`.error` = that file is missing or
corrupt — the reader never checks its existence, so either raises). -/
abbrev SubSlot := Option (Except Unit (List Vec) × Except Unit (List Nat))

structure BatchProgress where
  completed_batches : Nat
  total_batches : Nat
  total_chunks_processed : Nat
  total_embeddings_created : Nat
deriving DecidableEq

/-- The zeroed progress record created by `load_batch_progress` when no
progress file exists. -/
def initialProgress : BatchProgress := ⟨0, 0, 0, 0⟩

/-- The build environment: the corpus (its non-empty lines, in order; `none`
marks a line `json.loads` rejects), the batch size, the two embedding entry
points, and fault-injection switches for the external failures the source
catches (`countReadOk` for `count_total_lines`, `readOk b` for the gzip read
of batch `b`, `persistFails b` for a disk-write raise while persisting
batch `b`). -/
structure Env where
  corpus : List (Option Json)
  batchSize : Nat
  batchedSvc : List (List Char) → Option (List Vec)
  itemSvc : List Char → Option Vec
  countReadOk : Bool
  readOk : Nat → Bool
  persistFails : Nat → Bool

structure Disk where
  progress : BatchProgress
  batchFiles : Nat → Option (List Chunk)
  embFiles : Nat → List SubSlot

/-- The data directory before any build: default progress, no batch files. -/
def freshDisk : Disk := ⟨initialProgress, fun _ => none, fun _ => []⟩

/-- `BatchedRAG.count_total_lines` (lines 71-84): the number of non-empty
corpus lines, or 0 if reading raises. -/
def count_total_lines (env : Env) : Nat :=
  if env.countReadOk then env.corpus.length else 0

/-- The inner `for chunk_text in text_chunks` loop of `process_batch_lines`
(lines 155-164): one chunk record per text, ids assigned consecutively. -/
def mkChunks : List (List Char) → Nat → Nat → Nat → List Chunk
  | [], _, _, _ => []
  | ct :: rest, cid, srcLine, b => ⟨cid, ct, srcLine, b⟩ :: mkChunks rest (cid + 1) srcLine b

/-- The line loop of `process_batch_lines` (lines 134-174): skip lines before
`startLine`, stop at `endLine`, skip undecodable lines, and for each line
whose extracted text is non-empty and longer than 50 characters (stripped)
emit chunks of its text at `max_words = 400`. -/
def processLines : List (Option Json) → Nat → Nat → Nat → Nat → Nat → List Chunk
  | [], _, _, _, _, _ => []
  | l :: rest, currentLine, startLine, endLine, chunkId, batchNum =>
    if currentLine < startLine then
      processLines rest (currentLine + 1) startLine endLine chunkId batchNum
    else if endLine ≤ currentLine then []
    else
      match l with
      | none => processLines rest (currentLine + 1) startLine endLine chunkId batchNum
      | some j =>
        let t := extract_text_from_json_line j
        if t ≠ [] ∧ 50 < (pyStrip t).length then
          let produced := mkChunks (chunk_text t 400) chunkId (currentLine + 1) batchNum
          produced ++
            processLines rest (currentLine + 1) startLine endLine
              (chunkId + produced.length) batchNum
        else processLines rest (currentLine + 1) startLine endLine chunkId batchNum

/-- `BatchedRAG.process_batch_lines` (lines 121-181) without its outer
try/except: the chunks of batch `batchNum`, ids starting at `startId`
(= `total_chunks_processed` at call time). -/
def process_batch_lines (env : Env) (batchNum startId : Nat) : List Chunk :=
  processLines env.corpus 0 (batchNum * env.batchSize)
    (batchNum * env.batchSize + env.batchSize) startId batchNum

/-- `process_batch_lines` with its try/except (lines 132-178): a read error
anywhere in the loop discards the partial batch and returns the empty
list. -/
def processBatchLinesE (env : Env) (batchNum startId : Nat) : List Chunk :=
  if env.readOk batchNum then process_batch_lines env batchNum startId else []

/-- One sub-batch of `process_batch_embeddings` (lines 220-274): try the
batched call; if it raises, fall back to one-at-a-time `create_embedding`
calls.  Either way the chunk-id list is rebuilt from the sub-batch. -/
def embedSub (env : Env) (sub : List Chunk) : SubFile :=
  match env.batchedSvc (sub.map Chunk.text) with
  | some es => (es, sub.map Chunk.id)
  | none => (sub.map (fun c => create_embedding env.itemSvc c.text), sub.map Chunk.id)

/-- `BatchedRAG.process_batch_embeddings` (lines 210-277): slice the batch
into sub-batches of 50 (`range(0, total_chunks, 50)`) and embed each; the
result is the ordered list of sub-batch files written by
`save_embedding_batch`. -/
def process_batch_embeddings (env : Env) (batch_chunks : List Chunk) : List SubFile :=
  (rangeStep batch_chunks.length 50).map
    (fun i => embedSub env ((batch_chunks.drop i).take 50))

/-- The running total returned by `process_batch_embeddings`. -/
def embeddingsCreated (subs : List SubFile) : Nat :=
  (subs.map (fun sf => sf.1.length)).sum

/-- `BatchedRAG.save_batch_data`: write (overwrite) `batch_{b}.json`. -/
def save_batch_data (d : Disk) (b : Nat) (cs : List Chunk) : Disk :=
  { d with batchFiles := fun n => if n = b then some cs else d.batchFiles n }

/-- Overwrite sub-batch files `0..subs.length-1`; files beyond the new count
are untouched.  A fresh write leaves both files present and readable. -/
def writeSubs (old : List SubSlot) (subs : List SubFile) : List SubSlot :=
  subs.map (fun sf => some (.ok sf.1, .ok sf.2)) ++ old.drop subs.length

/-- The `save_embedding_batch` calls for one batch, in sub-batch order. -/
def save_embedding_batches (d : Disk) (b : Nat) (subs : List SubFile) : Disk :=
  { d with embFiles := fun n => if n = b then writeSubs (d.embFiles n) subs else d.embFiles n }

/-- The `for batch_num in range(start_batch, total_batches)` loop of
`build_index_in_batches` (lines 354-387), fuelled by the number of remaining
batches.  At each iteration the processed batch index is
`completed_batches` (the loop variable always equals it).  An empty batch is
marked complete and skipped (lines 361-365); a persistence error breaks out
of the loop with progress unsaved (modelled before the writes of the failing
batch — reruns overwrite their own files, so the claims observe only the
progress record); otherwise the chunk file and embedding sub-batch files are
written and progress is advanced and saved (lines 367-377).  The second
component records the batch indices the loop worked on, in order. -/
def buildLoop (env : Env) : Nat → Disk → Disk × List Nat
  | 0, d => (d, [])
  | fuel + 1, d =>
    let t := d.progress.total_batches
    let b := d.progress.completed_batches
    if t ≤ b then (d, [])
    else
      let batch_chunks := processBatchLinesE env b d.progress.total_chunks_processed
      if batch_chunks.isEmpty then
        let r := buildLoop env fuel
          { d with progress := { d.progress with completed_batches := b + 1 } }
        (r.1, b :: r.2)
      else if env.persistFails b then (d, [b])
      else
        let d1 := save_batch_data d b batch_chunks
        let subs := process_batch_embeddings env batch_chunks
        let d2 := save_embedding_batches d1 b subs
        let d3 : Disk := { d2 with progress :=
          { completed_batches := b + 1,
            total_batches := t,
            total_chunks_processed := d.progress.total_chunks_processed + batch_chunks.length,
            total_embeddings_created :=
              d.progress.total_embeddings_created + embeddingsCreated subs } }
        let r := buildLoop env fuel d3
        (r.1, b :: r.2)

/-- Lines 340-348 of `build_index_in_batches`: on the first attempt
(`total_batches == 0`) count the lines and persist
`total_batches = ceil(total_lines / batch_size)`; otherwise leave the
persisted value untouched. -/
def initTotals (env : Env) (d : Disk) : Disk :=
  if d.progress.total_batches = 0 then
    { d with progress := { d.progress with
        total_batches := ceilDiv (count_total_lines env) env.batchSize } }
  else d

/-- `BatchedRAG.build_index_in_batches` (lines 336-392) up to the final
`load_all_batches` call: initialise totals, then run the batch loop over the
remaining batches. -/
def build_index_in_batches (env : Env) (d : Disk) : Disk × List Nat :=
  let d0 := initTotals env d
  buildLoop env (d0.progress.total_batches - d0.progress.completed_batches) d0

/-- The `while True` sub-batch reader of `load_all_batches` (lines 308-324):
for `s = 0, 1, 2, ...`, break as soon as `embeddings_b_s.pkl` does not exist
(line 312); otherwise `pickle.load` it (line 317, raises on a truncated or
corrupt file) and open and `json.load` `indices_b_s.json` (line 320 — its
existence is never checked, so a missing or corrupt file raises), discard
the loaded indices, extend the result with the loaded embeddings, and
continue.  A raise is `.error`. -/
def readSubBatches : List SubSlot → Except Unit (List Vec)
  | [] => .ok []
  | none :: _ => .ok []
  | some (.error _, _) :: _ => .error ()
  | some (.ok _, .error _) :: _ => .error ()
  | some (.ok sub_embeddings, .ok _) :: rest =>
    match readSubBatches rest with
    | .error e => .error e
    | .ok vs => .ok (sub_embeddings ++ vs)

/-- One iteration of the `for batch_num in range(...)` loop of
`load_all_batches` (lines 296-329): once an iteration has raised, the raise
propagates (nothing later runs); otherwise, if the batch's chunk file exists
(line 299) read its sub-batches — a raise there propagates — and append the
chunks and embeddings; a missing chunk file is skipped and the loop
continues. -/
def loadStep (d : Disk) (acc : Except Unit (List Chunk × List Vec)) (b : Nat) :
    Except Unit (List Chunk × List Vec) :=
  match acc with
  | .error e => .error e
  | .ok a =>
    match d.batchFiles b with
    | none => .ok a
    | some cs =>
      match readSubBatches (d.embFiles b) with
      | .error e => .error e
      | .ok evs => .ok (a.1 ++ cs, a.2 ++ evs)

/-- `BatchedRAG.load_all_batches` (lines 289-334): fold the per-batch step
over the batch indices below `completed_batches`.  `.error` = the call
raised; it has no try/except of its own, and the call from
`build_index_in_batches` at line 390 sits outside the per-batch try, so a
raise escapes. -/
def load_all_batches (d : Disk) : Except Unit (List Chunk × List Vec) :=
  (List.range d.progress.completed_batches).foldl (loadStep d) (.ok ([], []))

/-- A disk state is batch-aligned when every present chunk file below
`completed_batches` is matched by sub-batch files that read successfully
and whose total embedding count equals the chunk count. -/
def batchAligned (d : Disk) : Prop :=
  ∀ b < d.progress.completed_batches, ∀ cs, d.batchFiles b = some cs →
    ∃ vs, readSubBatches (d.embFiles b) = .ok vs ∧ vs.length = cs.length

/-!
## In-memory engine, retriever, status reporter

The global `_rag_system` is an `Option Rag` (`none` = construction failed or
dependencies missing).  Cosine similarity is real-valued (`Real.sqrt`), so
`search`/`retrieve` are noncomputable; every branch the claims evaluate is
reached before any score is computed.  `search` returns `Except Unit` so
that a Python `IndexError` while copying result chunks is visible to
`retrieve`'s catch-all.
-/

structure Rag where
  batch_progress : BatchProgress
  chunks : List Chunk
  embeddings : List Vec

/-- A freshly constructed `BatchedRAG` over an empty data directory: default
progress, nothing loaded (`load_existing_data` finds no completed batch). -/
def freshRag : Rag := ⟨initialProgress, [], []⟩

/-- `np.dot` on two vectors (also the sum of squares when applied to a
vector and itself). -/
def dotQ (a b : Vec) : ℚ := (List.zipWith (· * ·) a b).sum

/-- `np.linalg.norm(a)`: the Euclidean norm. -/
noncomputable def vecNorm (a : Vec) : ℝ := Real.sqrt ((dotQ a a : ℚ) : ℝ)

/-- `BatchedRAG.cosine_similarity` (lines 400-405): `np.dot(a, b)` divided by
`norm(a) * norm(b)`, with no guard against a zero denominator (NumPy emits
NaN for 0/0; the real-number model maps that case to Lean's `x / 0`). -/
noncomputable def cosine_similarity (a b : Vec) : ℝ :=
  ((dotQ a b : ℚ) : ℝ) / (vecNorm a * vecNorm b)

/-- The result-assembly loop of `search` (lines 420-424):
`self.chunks[idx].copy()` raises `IndexError` on an out-of-range index,
modelled as `Except.error`. -/
def pickResults (chunks : List Chunk) : List (α × Nat) → Except Unit (List (Chunk × α))
  | [] => .ok []
  | (s, i) :: rest =>
    match chunks[i]? with
    | none => .error ()
    | some c =>
      match pickResults chunks rest with
      | .error e => .error e
      | .ok rs => .ok ((c, s) :: rs)

/-- `BatchedRAG.search` (lines 407-426): empty result on an empty index;
otherwise embed the query, score every stored embedding, stable-sort
descending by score, and copy out the top `top_k` chunks. -/
noncomputable def search (svc : List Char → Option Vec) (r : Rag) (query : List Char)
    (top_k : Nat) : Except Unit (List (Chunk × ℝ)) :=
  if r.chunks.isEmpty ∨ r.embeddings.isEmpty then .ok []
  else
    let query_embedding := create_embedding svc query
    let similarities :=
      r.embeddings.enum.map (fun p => (cosine_similarity query_embedding p.2, p.1))
    let sorted := similarities.mergeSort (fun x y => decide (y.1 ≤ x.1))
    pickResults r.chunks (sorted.take top_k)

/-- Module-level `is_ready` (lines 494-497). -/
def is_ready (rag? : Option Rag) : Bool :=
  match rag? with
  | none => false
  | some r => 0 < r.chunks.length

/-- Module-level `retrieve` (lines 481-492): empty list when the engine is
absent, the projected text/source pairs on success, and empty list when
`search` raises (the catch-all at lines 490-492). -/
noncomputable def retrieve (rag? : Option Rag) (svc : List Char → Option Vec)
    (query : List Char) (k : Nat) : List (List Char × Nat) :=
  match rag? with
  | none => []
  | some r =>
    match search svc r query k with
    | .error _ => []
    | .ok results => results.map (fun p => (p.1.text, p.1.source))

inductive BuildStatus where
  | not_started (percentage chunks_processed embeddings_created total_estimated_chunks : Nat)
  | building (percentage chunks_processed embeddings_created batches_completed
      total_batches : Nat)
  | complete (percentage chunks_processed embeddings_created total_estimated_chunks : Nat)
deriving DecidableEq

/-- `BatchedRAG.get_build_status` (lines 428-463); the human-readable
`progress` strings are omitted, and `int((completed / total) * 100)` is the
exact truncation `completed * 100 / total`. -/
def get_build_status (r : Rag) : BuildStatus :=
  let total_batches := r.batch_progress.total_batches
  let completed_batches := r.batch_progress.completed_batches
  if total_batches = 0 then .not_started 0 0 0 0
  else
    let percentage := completed_batches * 100 / total_batches
    if total_batches ≤ completed_batches then
      .complete 100 r.chunks.length r.embeddings.length r.chunks.length
    else
      .building percentage r.batch_progress.total_chunks_processed
        r.batch_progress.total_embeddings_created completed_batches total_batches

/-!
## Helper lemmas
-/

theorem mkChunks_length (tcs : List (List Char)) (cid srcLine b : Nat) :
    (mkChunks tcs cid srcLine b).length = tcs.length := by
  induction tcs generalizing cid with
  | nil => rfl
  | cons ct rest ih => simp [mkChunks, ih]

theorem mkChunks_ids (tcs : List (List Char)) (cid srcLine b : Nat) :
    (mkChunks tcs cid srcLine b).map Chunk.id = List.range' cid tcs.length := by
  induction tcs generalizing cid with
  | nil => rfl
  | cons ct rest ih => simp [mkChunks, ih, List.range'_succ]

theorem mkChunks_texts (tcs : List (List Char)) (cid srcLine b : Nat) :
    (mkChunks tcs cid srcLine b).map Chunk.text = tcs := by
  induction tcs generalizing cid with
  | nil => rfl
  | cons ct rest ih => simp [mkChunks, ih]

theorem dotQ_zero_right (q : Vec) (n : Nat) :
    dotQ q (List.replicate n (0 : ℚ)) = 0 := by
  induction q generalizing n with
  | nil => simp [dotQ]
  | cons c q ih =>
    cases n with
    | zero => simp [dotQ]
    | succ n =>
      simp only [List.replicate_succ, dotQ, List.zipWith_cons_cons, List.sum_cons, mul_zero,
        zero_add]
      exact ih n

theorem vecNorm_zeroVec : vecNorm zeroVec = 0 := by
  have h : dotQ zeroVec zeroVec = 0 := dotQ_zero_right zeroVec 1536
  simp [vecNorm, h]

theorem pickResults_ok_length (chunks : List Chunk) (l : List (α × Nat))
    (rs : List (Chunk × α)) (h : pickResults chunks l = .ok rs) :
    rs.length = l.length := by
  induction l generalizing rs with
  | nil => simp [pickResults] at h; simp [← h]
  | cons p rest ih =>
    obtain ⟨s, i⟩ := p
    simp only [pickResults] at h
    cases hc : chunks[i]? with
    | none => rw [hc] at h; exact absurd h (by simp)
    | some c =>
      rw [hc] at h
      cases hr : pickResults chunks rest with
      | error e => rw [hr] at h; exact absurd h (by simp)
      | ok rs' =>
        rw [hr] at h
        cases h
        simpa using ih rs' hr

/-!
## Claim theorems: C6, C10, C9, C4, C3
-/

/-- Claim C6: when the batched embedding call fails for a whole sub-batch of
at most 50 chunks, the fallback path still yields exactly one embedding per
chunk (each the individual call's result or the zero vector) and exactly one
chunk id per chunk, positionally aligned with the sub-batch. -/
theorem c6_fallback_alignment (env : Env) (sub : List Chunk)
    (hlen : sub.length ≤ 50)
    (hfail : env.batchedSvc (sub.map Chunk.text) = none) :
    (embedSub env sub).1 = sub.map (fun c => create_embedding env.itemSvc c.text) ∧
    (embedSub env sub).1.length = sub.length ∧
    (embedSub env sub).2 = sub.map Chunk.id := by
  unfold embedSub
  rw [hfail]
  exact ⟨rfl, by simp, rfl⟩

/-- Witness for C6 at a concrete 50-chunk sub-batch and always-failing
services. -/
theorem c6_fallback_alignment_witness :
    (embedSub ⟨[], 1, fun _ => none, fun _ => none, true, fun _ => true, fun _ => false⟩
        ((List.range 50).map (fun i => ⟨i, ['t'], 1, 0⟩))).1 =
      ((List.range 50).map (fun i => (⟨i, ['t'], 1, 0⟩ : Chunk))).map
        (fun c => create_embedding (fun _ => none) c.text) ∧
    (embedSub ⟨[], 1, fun _ => none, fun _ => none, true, fun _ => true, fun _ => false⟩
        ((List.range 50).map (fun i => ⟨i, ['t'], 1, 0⟩))).1.length =
      ((List.range 50).map (fun i => (⟨i, ['t'], 1, 0⟩ : Chunk))).length ∧
    (embedSub ⟨[], 1, fun _ => none, fun _ => none, true, fun _ => true, fun _ => false⟩
        ((List.range 50).map (fun i => ⟨i, ['t'], 1, 0⟩))).2 =
      ((List.range 50).map (fun i => (⟨i, ['t'], 1, 0⟩ : Chunk))).map Chunk.id :=
  c6_fallback_alignment _ _ (by simp) rfl

/-- Claim C10: a stored zero-vector embedding (the fallback value when an
individual embedding call fails) makes the cosine-similarity denominator
vanish for every query embedding, and the numerator vanishes too, so the
score is the unguarded division 0/0 (NaN in NumPy). -/
theorem c10_zero_vector_divides_by_zero :
    ∀ q : Vec,
      (vecNorm q * vecNorm zeroVec = 0 ∧ dotQ q zeroVec = 0 ∧
        cosine_similarity q zeroVec = ((dotQ q zeroVec : ℚ) : ℝ) / 0) ∧
      ∀ t : List Char, create_embedding (fun _ => none) t = zeroVec := by
  intro q
  have hden : vecNorm q * vecNorm zeroVec = 0 := by rw [vecNorm_zeroVec, mul_zero]
  exact ⟨⟨hden, dotQ_zero_right q 1536, by rw [cosine_similarity, hden]⟩,
    fun t => rfl⟩

/-- Claim C9: `get_build_status` reports `not_started` with percentage 0 when
no batches have been counted, `building` with truncated percentage and the
running counters while `0 < completed < total`, and `complete` with
percentage 100 and the assembled index's counts when `completed ≥ total`
(with at least one batch counted). -/
theorem c9_build_status (r : Rag) :
    (r.batch_progress.total_batches = 0 →
      get_build_status r = .not_started 0 0 0 0) ∧
    (0 < r.batch_progress.completed_batches →
      r.batch_progress.completed_batches < r.batch_progress.total_batches →
      get_build_status r = .building
        (r.batch_progress.completed_batches * 100 / r.batch_progress.total_batches)
        r.batch_progress.total_chunks_processed
        r.batch_progress.total_embeddings_created
        r.batch_progress.completed_batches
        r.batch_progress.total_batches) ∧
    (0 < r.batch_progress.total_batches →
      r.batch_progress.total_batches ≤ r.batch_progress.completed_batches →
      get_build_status r =
        .complete 100 r.chunks.length r.embeddings.length r.chunks.length) := by
  refine ⟨fun h0 => ?_, fun hc hlt => ?_, fun ht hge => ?_⟩
  · simp [get_build_status, h0]
  · rw [get_build_status]
    rw [if_neg (by omega), if_neg (by omega)]
  · rw [get_build_status]
    rw [if_neg (by omega), if_pos (by omega)]

/-- Witness for C9 at one concrete state per reported phase. -/
theorem c9_build_status_witness :
    get_build_status ⟨⟨0, 0, 0, 0⟩, [], []⟩ = .not_started 0 0 0 0 ∧
    get_build_status ⟨⟨1, 3, 7, 8⟩, [], []⟩ = .building (1 * 100 / 3) 7 8 1 3 ∧
    get_build_status ⟨⟨3, 3, 7, 8⟩, [⟨0, ['x'], 1, 0⟩], [[]]⟩ = .complete 100 1 1 1 :=
  ⟨(c9_build_status _).1 rfl,
   (c9_build_status _).2.1 (by decide) (by decide),
   (c9_build_status _).2.2 (by decide) (by decide)⟩

/-- Claim C4: `retrieve` never returns more than `k` results, and whenever
`is_ready` is false (in particular on a fresh engine) it returns the empty
list (the source catches every exception, modelled by totality plus the
`Except`-valued `search`). -/
theorem c4_retrieve_bounds (rag? : Option Rag) (svc : List Char → Option Vec)
    (q : List Char) (k : Nat) :
    (retrieve rag? svc q k).length ≤ k ∧
    (is_ready rag? = false → retrieve rag? svc q k = []) := by
  constructor
  · cases rag? with
    | none => simp [retrieve]
    | some r =>
      rw [retrieve]
      cases hs : search svc r q k with
      | error e => simp
      | ok results =>
        simp only [List.length_map]
        rw [search] at hs
        split at hs
        · cases hs; simp
        · have := pickResults_ok_length _ _ _ hs
          rw [this]
          exact le_trans (List.length_take_le _ _) le_rfl
  · intro hready
    cases rag? with
    | none => rfl
    | some r =>
      have hlen : r.chunks.length = 0 := by
        by_contra h
        rw [is_ready] at hready
        simp only [decide_eq_false_iff_not, not_lt, Nat.le_zero] at hready
        exact h hready
      have hnil : r.chunks.isEmpty = true := by
        cases hcs : r.chunks with
        | nil => rfl
        | cons a l => rw [hcs] at hlen; simp at hlen
      rw [retrieve, search, if_pos (Or.inl hnil)]
      rfl

/-- Witness for C4 on a freshly constructed, never-built engine. -/
theorem c4_retrieve_bounds_witness :
    (retrieve (some freshRag) (fun _ => none) "anything".toList 5).length ≤ 5 ∧
    retrieve (some freshRag) (fun _ => none) "anything".toList 5 = [] :=
  ⟨(c4_retrieve_bounds (some freshRag) (fun _ => none) "anything".toList 5).1,
   (c4_retrieve_bounds (some freshRag) (fun _ => none) "anything".toList 5).2 rfl⟩

theorem buildLoop_total_batches (env : Env) (fuel : Nat) (d : Disk) :
    ((buildLoop env fuel d).1).progress.total_batches = d.progress.total_batches := by
  induction fuel generalizing d with
  | zero => rfl
  | succ fuel ih =>
    simp only [buildLoop]
    repeat' split
    all_goals first | rfl | exact ih _ | simpa using ih _

/-- Claim C3: on the first build attempt (persisted `total_batches = 0`) the
coordinator counts the non-empty lines and sets
`total_batches = ceil(total_lines / batch_size)`; when a persisted value
exists the initialisation phase changes nothing (no recount), the batch loop
never alters it, and for a non-empty corpus the value set on the first
attempt is non-zero, so no later invocation recounts. -/
theorem c3_total_batches_once (env : Env) (d : Disk)
    (hread : env.countReadOk = true) (hbs : 0 < env.batchSize) :
    (d.progress.total_batches = 0 →
      (initTotals env d).progress.total_batches =
        ceilDiv env.corpus.length env.batchSize) ∧
    (d.progress.total_batches ≠ 0 → initTotals env d = d) ∧
    (∀ fuel d', ((buildLoop env fuel d').1).progress.total_batches =
      d'.progress.total_batches) ∧
    (env.corpus ≠ [] → d.progress.total_batches = 0 →
      (initTotals env d).progress.total_batches ≠ 0) := by
  refine ⟨fun h0 => ?_, fun hne => ?_, fun fuel d' => buildLoop_total_batches env fuel d',
    fun hcorpus h0 => ?_⟩
  · rw [initTotals, if_pos h0]
    simp [count_total_lines, hread]
  · rw [initTotals, if_neg hne]
  · rw [initTotals, if_pos h0]
    simp only [count_total_lines, hread, if_true]
    have hlen : 1 ≤ env.corpus.length := by
      cases h : env.corpus with
      | nil => exact absurd h hcorpus
      | cons a l => simp [h]
    have : 1 ≤ ceilDiv env.corpus.length env.batchSize := by
      rw [ceilDiv, Nat.one_le_div_iff hbs]
      omega
    omega

/-- Witness for C3: a 3-line corpus with batch size 2 yields
`total_batches = ceil(3/2) = 2`, and it is non-zero. -/
theorem c3_total_batches_once_witness :
    (initTotals ⟨[some .null, some .null, some .null], 2, fun _ => none, fun _ => none,
        true, fun _ => true, fun _ => false⟩ freshDisk).progress.total_batches =
      ceilDiv 3 2 ∧
    (initTotals ⟨[some .null, some .null, some .null], 2, fun _ => none, fun _ => none,
        true, fun _ => true, fun _ => false⟩ freshDisk).progress.total_batches ≠ 0 :=
  ⟨(c3_total_batches_once _ freshDisk rfl (by decide)).1 rfl,
   (c3_total_batches_once _ freshDisk rfl (by decide)).2.2.2 (by simp) rfl⟩

/-!
## C2: index assembly alignment
-/

theorem load_foldl_error (d : Disk) (l : List Nat) :
    l.foldl (loadStep d) (.error ()) = .error () := by
  induction l with
  | nil => rfl
  | cons b l ih =>
    simp only [List.foldl_cons]
    exact ih

theorem load_foldl_balance (d : Disk) (l : List Nat) :
    ∀ acc : List Chunk × List Vec,
      (∀ b ∈ l, ∀ cs, d.batchFiles b = some cs →
        ∃ vs, readSubBatches (d.embFiles b) = .ok vs ∧ vs.length = cs.length) →
      acc.1.length = acc.2.length →
      ∃ pr : List Chunk × List Vec,
        l.foldl (loadStep d) (.ok acc) = .ok pr ∧ pr.1.length = pr.2.length := by
  induction l with
  | nil => exact fun acc _ hacc => ⟨acc, rfl, hacc⟩
  | cons b l ih =>
    intro acc hl hacc
    simp only [List.foldl_cons, loadStep]
    cases hf : d.batchFiles b with
    | none => exact ih acc (fun b' hb' => hl b' (List.mem_cons_of_mem _ hb')) hacc
    | some cs =>
      obtain ⟨vs, hread, hlen⟩ := hl b (List.mem_cons_self _ _) cs hf
      rw [hread]
      refine ih _ (fun b' hb' => hl b' (List.mem_cons_of_mem _ hb')) ?_
      simp [hacc, hlen]

theorem load_foldl_trigger (d : Disk) (l : List Nat) :
    ∀ acc, ∀ b ∈ l, (∃ cs, d.batchFiles b = some cs) →
      readSubBatches (d.embFiles b) = .error () →
      l.foldl (loadStep d) acc = .error () := by
  induction l with
  | nil =>
    intro acc b hb
    simp at hb
  | cons x l ih =>
    intro acc b hb hcs hread
    simp only [List.foldl_cons]
    rw [List.mem_cons] at hb
    cases hb with
    | inl hxb =>
      subst hxb
      obtain ⟨cs, hcs⟩ := hcs
      cases acc with
      | error e => exact load_foldl_error d l
      | ok a =>
        have hstep : loadStep d (.ok a) b = .error () := by
          simp only [loadStep]
          rw [hcs, hread]
        rw [hstep]
        exact load_foldl_error d l
    | inr hbl =>
      cases hres : loadStep d acc x with
      | error e =>
        cases e
        exact load_foldl_error d l
      | ok a => exact ih (.ok a) b hbl hcs hread

/-- Claim C2 (amended): on a batch-aligned disk state — every present chunk
file below `completed_batches` is matched by sub-batch files that read
successfully with equal total embedding count — assembly succeeds and the
assembled chunk and embedding lists have equal length.  A missing
embeddings pkl file (the only existence the reader checks) ends that
batch's sub-batch collection without raising; it does not stop assembly
before the batch, which still appends the chunks and continues (see the
counterexample), so the lists can be misaligned.  And assembly can raise:
a present-but-truncated embeddings pkl, or a missing or corrupt indices
json, raises out of the sub-batch reader, and any such batch below
`completed_batches` whose chunk file exists makes `load_all_batches`
raise. -/
theorem c2_assembly_alignment (d : Disk) :
    (batchAligned d →
      load_all_batches d ≠ .error () ∧
      (load_all_batches d).map (fun pr => pr.1.length) =
        (load_all_batches d).map (fun pr => pr.2.length)) ∧
    (∀ rest : List SubSlot, readSubBatches (none :: rest) = .ok []) ∧
    (∀ (er : Except Unit (List Nat)) (rest : List SubSlot),
      readSubBatches (some (.error (), er) :: rest) = .error ()) ∧
    (∀ (vs : List Vec) (rest : List SubSlot),
      readSubBatches (some (.ok vs, .error ()) :: rest) = .error ()) ∧
    (∀ b, b < d.progress.completed_batches → ∀ cs, d.batchFiles b = some cs →
      readSubBatches (d.embFiles b) = .error () →
      load_all_batches d = .error ()) := by
  refine ⟨fun h => ?_, fun rest => rfl, fun er rest => rfl, fun vs rest => rfl,
    fun b hb cs hcs hread => ?_⟩
  · obtain ⟨pr, hpr, hlen⟩ :=
      load_foldl_balance d (List.range d.progress.completed_batches) ([], [])
        (fun b hb => h b (List.mem_range.mp hb)) rfl
    have hpr' : load_all_batches d = .ok pr := hpr
    rw [hpr']
    exact ⟨by simp, by simp [Except.map, hlen]⟩
  · exact load_foldl_trigger d _ _ b (List.mem_range.mpr hb) ⟨cs, hcs⟩ hread

/-- Witness for C2 (amended): a concrete aligned one-batch disk assembles
with equal lengths, and the same disk with its embeddings pkl present but
truncated makes assembly raise. -/
theorem c2_assembly_alignment_witness :
    (load_all_batches
        ⟨⟨1, 1, 1, 1⟩, fun b => if b = 0 then some [⟨0, ['x'], 1, 0⟩] else none,
          fun b => if b = 0 then [some (.ok [[]], .ok [0])] else []⟩ ≠ .error () ∧
      (load_all_batches
        ⟨⟨1, 1, 1, 1⟩, fun b => if b = 0 then some [⟨0, ['x'], 1, 0⟩] else none,
          fun b => if b = 0 then [some (.ok [[]], .ok [0])] else []⟩).map
            (fun pr => pr.1.length) =
      (load_all_batches
        ⟨⟨1, 1, 1, 1⟩, fun b => if b = 0 then some [⟨0, ['x'], 1, 0⟩] else none,
          fun b => if b = 0 then [some (.ok [[]], .ok [0])] else []⟩).map
            (fun pr => pr.2.length)) ∧
    load_all_batches
        ⟨⟨1, 1, 1, 1⟩, fun b => if b = 0 then some [⟨0, ['x'], 1, 0⟩] else none,
          fun b => if b = 0 then [some (.error (), .ok [0])] else []⟩ = .error () := by
  constructor
  · refine (c2_assembly_alignment _).1 ?_
    intro b hb cs hcs
    have hb1 : b < 1 := hb
    have hb0 : b = 0 := by omega
    subst hb0
    have h2 : (some [(⟨0, ['x'], 1, 0⟩ : Chunk)] : Option (List Chunk)) = some cs := hcs
    injection h2 with h3
    refine ⟨[[]], rfl, ?_⟩
    rw [← h3]
    rfl
  · exact (c2_assembly_alignment _).2.2.2.2 0 (by decide) [⟨0, ['x'], 1, 0⟩] rfl rfl

/-- Counterexample to C2 as stated: batch 0's chunk file exists (one chunk)
but no embedding sub-batch file does; assembly does not stop before the
batch and does not raise — it appends the chunks anyway, yielding
misaligned lists of lengths 1 and 0. -/
theorem c2_counterexample :
    (load_all_batches
        ⟨⟨1, 1, 1, 0⟩, fun b => if b = 0 then some [⟨0, ['x'], 1, 0⟩] else none,
          fun _ => []⟩).map (fun pr => pr.1.length) = .ok 1 ∧
    (load_all_batches
        ⟨⟨1, 1, 1, 0⟩, fun b => if b = 0 then some [⟨0, ['x'], 1, 0⟩] else none,
          fun _ => []⟩).map (fun pr => pr.2.length) = .ok 0 := by
  constructor <;> rfl

/-!
## C5: batch-level error handling
-/

theorem buildLoop_trace_head (env : Env) (f : Nat) (d : Disk)
    (hlt : d.progress.completed_batches < d.progress.total_batches) (hf : 0 < f) :
    ((buildLoop env f d).2).head? = some d.progress.completed_batches := by
  cases f with
  | zero => omega
  | succ f =>
    have hb : ¬ (d.progress.total_batches ≤ d.progress.completed_batches) := by omega
    simp only [buildLoop, if_neg hb]
    split
    · rfl
    · split
      · rfl
      · rfl

/-- Claim C5 (amended): an error raised while persisting a batch — writing
its chunk file or its embedding sub-batch files — aborts the build loop with
the disk state, in particular `completed_batches`, unchanged, and any later
build invocation starts again at that same batch.  The original claim's own
example — the corpus becoming unreadable mid-batch — does not behave this
way: `process_batch_lines` catches the error internally and returns an empty
chunk list, which the loop treats as an empty batch and marks complete (see
the counterexample). -/
theorem c5_persist_error_aborts (env env' : Env) (d : Disk) (f : Nat)
    (hlt : d.progress.completed_batches < d.progress.total_batches)
    (hchunks : processBatchLinesE env d.progress.completed_batches
      d.progress.total_chunks_processed ≠ [])
    (hfail : env.persistFails d.progress.completed_batches = true) :
    (buildLoop env f d).1 = d ∧
    (0 < f → (buildLoop env f d).2 = [d.progress.completed_batches]) ∧
    ((build_index_in_batches env' d).2).head? = some d.progress.completed_batches := by
  have hb : ¬ (d.progress.total_batches ≤ d.progress.completed_batches) := by omega
  have hemp : (processBatchLinesE env d.progress.completed_batches
      d.progress.total_chunks_processed).isEmpty = false := by
    cases h : processBatchLinesE env d.progress.completed_batches
        d.progress.total_chunks_processed with
    | nil => exact absurd h hchunks
    | cons a l => rfl
  have hinit : initTotals env' d = d := by
    rw [initTotals, if_neg (by omega)]
  refine ⟨?_, fun hf => ?_, ?_⟩
  · cases f with
    | zero => rfl
    | succ f => simp [buildLoop, hb, hemp, hfail]
  · cases f with
    | zero => omega
    | succ f => simp [buildLoop, hb, hemp, hfail]
  · rw [build_index_in_batches]
    rw [hinit]
    exact buildLoop_trace_head env' _ d hlt (by omega)

/-- Witness for C5 (amended) at a concrete one-line corpus whose only batch
persist-fails. -/
theorem c5_persist_error_aborts_witness :
    (buildLoop
        ⟨[some (.obj (.cons "content".toList (.str (List.replicate 60 'a')) .nil))], 1,
          fun ts => some (ts.map (fun _ => ([] : Vec))), fun _ => none, true,
          fun _ => true, fun _ => true⟩ 1
        ⟨⟨0, 1, 0, 0⟩, fun _ => none, fun _ => []⟩).1 =
      ⟨⟨0, 1, 0, 0⟩, fun _ => none, fun _ => []⟩ ∧
    (buildLoop
        ⟨[some (.obj (.cons "content".toList (.str (List.replicate 60 'a')) .nil))], 1,
          fun ts => some (ts.map (fun _ => ([] : Vec))), fun _ => none, true,
          fun _ => true, fun _ => true⟩ 1
        ⟨⟨0, 1, 0, 0⟩, fun _ => none, fun _ => []⟩).2 = [0] ∧
    ((build_index_in_batches
        ⟨[some (.obj (.cons "content".toList (.str (List.replicate 60 'a')) .nil))], 1,
          fun ts => some (ts.map (fun _ => ([] : Vec))), fun _ => none, true,
          fun _ => true, fun _ => true⟩
        ⟨⟨0, 1, 0, 0⟩, fun _ => none, fun _ => []⟩).2).head? = some 0 := by
  obtain ⟨h1, h2, h3⟩ :=
    c5_persist_error_aborts
      ⟨[some (.obj (.cons "content".toList (.str (List.replicate 60 'a')) .nil))], 1,
        fun ts => some (ts.map (fun _ => ([] : Vec))), fun _ => none, true,
        fun _ => true, fun _ => true⟩
      ⟨[some (.obj (.cons "content".toList (.str (List.replicate 60 'a')) .nil))], 1,
        fun ts => some (ts.map (fun _ => ([] : Vec))), fun _ => none, true,
        fun _ => true, fun _ => true⟩
      ⟨⟨0, 1, 0, 0⟩, fun _ => none, fun _ => []⟩ 1 (by decide) (by decide) rfl
  exact ⟨h1, h2 (by decide), h3⟩

/-- Counterexample to C5 as stated: with a two-line corpus (batch size 1)
whose batch 0 read raises, the build does not abort and does not leave
`completed_batches` unchanged — it marks batch 0 complete (no chunk file is
ever written for it), continues with batch 1, and finishes with
`completed_batches = 2`, so batch 0 is never retried. -/
theorem c5_counterexample :
    (build_index_in_batches
        ⟨[some (.obj (.cons "content".toList (.str (List.replicate 60 'a')) .nil)),
          some (.obj (.cons "content".toList (.str (List.replicate 60 'b')) .nil))], 1,
          fun ts => some (ts.map (fun _ => ([] : Vec))), fun _ => none, true,
          fun b => !(b == 0), fun _ => false⟩
        freshDisk).1.progress.completed_batches = 2 ∧
    (build_index_in_batches
        ⟨[some (.obj (.cons "content".toList (.str (List.replicate 60 'a')) .nil)),
          some (.obj (.cons "content".toList (.str (List.replicate 60 'b')) .nil))], 1,
          fun ts => some (ts.map (fun _ => ([] : Vec))), fun _ => none, true,
          fun b => !(b == 0), fun _ => false⟩
        freshDisk).2 = [0, 1] ∧
    (build_index_in_batches
        ⟨[some (.obj (.cons "content".toList (.str (List.replicate 60 'a')) .nil)),
          some (.obj (.cons "content".toList (.str (List.replicate 60 'b')) .nil))], 1,
          fun ts => some (ts.map (fun _ => ([] : Vec))), fun _ => none, true,
          fun b => !(b == 0), fun _ => false⟩
        freshDisk).1.batchFiles 0 = none := by
  refine ⟨by decide, by decide, by decide⟩

/-!
## C8: per-line chunk production
-/

theorem ceilDiv_eq_one (n m : Nat) (hn : 0 < n) (hnm : n ≤ m) : ceilDiv n m = 1 := by
  rw [ceilDiv]
  refine Nat.div_eq_of_lt_le ?_ ?_
  · omega
  · omega

theorem chunk_text_single (text : List Char) (m : Nat)
    (hn : 0 < (words text).length) (hnm : (words text).length ≤ m)
    (hfloor : 50 < (pyStrip (joinSp (words text))).length) :
    chunk_text text m = [pyStrip (joinSp (words text))] := by
  have hm : 0 < m := lt_of_lt_of_le hn hnm
  rw [chunk_text]
  rw [rangeStep, if_neg (by omega), ceilDiv_eq_one _ _ hn hnm]
  simp only [List.range_succ, List.range_zero, List.nil_append, List.map_cons,
    List.map_nil, Nat.zero_mul, List.drop_zero]
  rw [List.take_of_length_le hnm]
  simp [hfloor]

theorem extract_single_content (v : List Char) (h1 : 20 < (pyStrip v).length) :
    extract_text_from_json_line (.obj (.cons "content".toList (.str v) .nil)) =
      "[content] ".toList ++ pyStrip v := by
  rw [extract_text_from_json_line]
  rw [show extract_texts (.obj (.cons "content".toList (.str v) .nil)) =
      (if ("content".toList.map Char.toLower) ∈ text_fields ∧ 20 < (pyStrip v).length then
        [fieldContext [] "content".toList ++ pyStrip v]
      else []) ++ extractFields .nil [] from rfl]
  rw [if_pos (show ("content".toList.map Char.toLower) ∈ text_fields ∧
    20 < (pyStrip v).length from ⟨by decide, h1⟩)]
  rw [show fieldContext [] "content".toList = "[content] ".toList from by decide]
  rfl

/-- Claim C8 (amended): a corpus line with a `content` field of `"short"`
(below the 20-character extraction threshold, and in any case below the
50-character chunk floor) produces zero chunks; and a corpus line whose
`content` text — prefixed by the `[content]` label — splits into at most
400 words and passes the 50-character floors produces exactly one chunk.
The bound is 400, not the claimed 500: `process_batch_lines` calls
`chunk_text` with `max_words=400`, so contents of 401-500 words can produce
two chunks (see the counterexample). -/
theorem c8_line_chunk_counts (env envS : Env) (v : List Char) (startId sId : Nat)
    (hbs : 0 < env.batchSize)
    (hc : env.corpus = [some (.obj (.cons "content".toList (.str v) .nil))])
    (h1 : 20 < (pyStrip v).length)
    (h2 : (words ("[content] ".toList ++ pyStrip v)).length ≤ 400)
    (h3 : 50 < (pyStrip ("[content] ".toList ++ pyStrip v)).length)
    (h4 : 50 < (pyStrip (joinSp (words ("[content] ".toList ++ pyStrip v)))).length)
    (hbsS : 0 < envS.batchSize)
    (hcS : envS.corpus = [some (.obj (.cons "content".toList (.str "short".toList) .nil))]) :
    (process_batch_lines env 0 startId).length = 1 ∧
    process_batch_lines envS 0 sId = [] := by
  constructor
  · rw [process_batch_lines, hc]
    rw [processLines]
    rw [if_neg (by omega), if_neg (by omega)]
    rw [extract_single_content v h1]
    rw [if_pos ⟨by simp, h3⟩]
    have hwpos : 0 < (words ("[content] ".toList ++ pyStrip v)).length := by
      by_contra h
      have hz : (words ("[content] ".toList ++ pyStrip v)).length = 0 := by omega
      rw [List.length_eq_zero] at hz
      rw [hz] at h4
      simp [joinSp, pyStrip] at h4
    rw [chunk_text_single _ 400 hwpos h2 h4]
    simp [processLines, mkChunks]
  · rw [process_batch_lines, hcS]
    rw [processLines]
    rw [if_neg (by omega), if_neg (by omega)]
    rw [show extract_text_from_json_line
        (.obj (.cons "content".toList (.str "short".toList) .nil)) = [] from by decide]
    rw [if_neg (by simp)]
    rfl

/-- Witness for C8 (amended): a 60-character `content` value yields exactly
one chunk, and the `"short"` line yields none. -/
theorem c8_line_chunk_counts_witness :
    (process_batch_lines
        ⟨[some (.obj (.cons "content".toList (.str (List.replicate 60 'a')) .nil))], 1,
          fun _ => none, fun _ => none, true, fun _ => true, fun _ => false⟩ 0 0).length = 1 ∧
    process_batch_lines
        ⟨[some (.obj (.cons "content".toList (.str "short".toList) .nil))], 1,
          fun _ => none, fun _ => none, true, fun _ => true, fun _ => false⟩ 0 0 = [] :=
  c8_line_chunk_counts _ _ (List.replicate 60 'a') 0 0 (by decide) rfl (by decide)
    (by decide) (by decide) (by decide) (by decide) rfl

set_option maxRecDepth 40000 in
/-- Counterexample to C8 as stated: a `content` value of 401 words (400
two-character words and one 60-character word) is "under 500 words of real
text", yet `process_batch_lines` produces two chunks, because it chunks at
`max_words=400` (the `[content]` label makes 402 words, split 400 + 2). -/
theorem c8_counterexample :
    (process_batch_lines
        ⟨[some (.obj (.cons "content".toList
            (.str (joinSp (List.replicate 400 ['a', 'a'] ++ [List.replicate 60 'x'])))
            .nil))], 1,
          fun _ => none, fun _ => none, true, fun _ => true, fun _ => false⟩ 0 0).length = 2 := by
  decide

/-!
## C7: chunker determinism, idempotence, round-trip
-/

theorem wordsAux_append (w : List Char) (s acc : List Char)
    (hw : ∀ c ∈ w, isWs c = false) :
    wordsAux (w ++ s) acc = wordsAux s (w.reverse ++ acc) := by
  induction w generalizing acc with
  | nil => simp
  | cons c w ih =>
    have hc : isWs c = false := hw c (List.mem_cons_self _ _)
    rw [List.cons_append, wordsAux, if_neg (by simp [hc])]
    rw [ih _ (fun c' hc' => hw c' (List.mem_cons_of_mem _ hc'))]
    simp

theorem wordsAux_ws_cons (c : Char) (s acc : List Char) (hc : isWs c = true) :
    wordsAux (c :: s) acc =
      if acc.isEmpty then wordsAux s [] else acc.reverse :: wordsAux s [] := by
  rw [wordsAux, if_pos hc]

theorem words_joinSp (ws : List (List Char))
    (h : ∀ w ∈ ws, w ≠ [] ∧ ∀ c ∈ w, isWs c = false) :
    words (joinSp ws) = ws := by
  induction ws with
  | nil => rfl
  | cons w rest ih =>
    obtain ⟨hw, hwc⟩ := h w (List.mem_cons_self _ _)
    cases rest with
    | nil =>
      show words w = [w]
      rw [words]
      have h1 := wordsAux_append w [] [] hwc
      rw [List.append_nil] at h1
      rw [h1, wordsAux, if_neg (by simp [hw])]
      simp
    | cons w2 rest2 =>
      show words (w ++ ' ' :: joinSp (w2 :: rest2)) = w :: w2 :: rest2
      rw [words, wordsAux_append w _ [] hwc, List.append_nil]
      rw [wordsAux_ws_cons ' ' _ _ (by decide)]
      rw [if_neg (by simp [hw]), List.reverse_reverse]
      exact congrArg (w :: ·)
        (ih (fun w' hw' => h w' (List.mem_cons_of_mem _ hw')))

theorem wordsAux_good (s : List Char) (acc : List Char)
    (hacc : ∀ c ∈ acc, isWs c = false) :
    ∀ w ∈ wordsAux s acc, w ≠ [] ∧ ∀ c ∈ w, isWs c = false := by
  induction s generalizing acc with
  | nil =>
    intro w hwmem
    rw [wordsAux] at hwmem
    split at hwmem
    · simp at hwmem
    · rename_i hne
      rw [List.mem_singleton] at hwmem
      subst hwmem
      refine ⟨by simpa using fun h => hne (by simp [h]), ?_⟩
      intro c hc
      exact hacc c (List.mem_reverse.mp hc)
  | cons c s ih =>
    intro w hwmem
    rw [wordsAux] at hwmem
    by_cases hc : isWs c = true
    · rw [if_pos hc] at hwmem
      split at hwmem
      · exact ih [] (by simp) w hwmem
      · rename_i hne
        rw [List.mem_cons] at hwmem
        cases hwmem with
        | inl hwe =>
          subst hwe
          refine ⟨by simpa using fun h => hne (by simp [h]), ?_⟩
          intro c' hc'
          exact hacc c' (List.mem_reverse.mp hc')
        | inr hwm => exact ih [] (by simp) w hwm
    · rw [if_neg hc] at hwmem
      refine ih (c :: acc) ?_ w hwmem
      intro c' hc'
      rw [List.mem_cons] at hc'
      cases hc' with
      | inl h => subst h; simpa using hc
      | inr h => exact hacc c' h

theorem words_good (s : List Char) :
    ∀ w ∈ words s, w ≠ [] ∧ ∀ c ∈ w, isWs c = false :=
  wordsAux_good s [] (by simp)

theorem dropWhile_ws_cons_self (c : Char) (t : List Char) (hc : isWs c = false) :
    (c :: t).dropWhile isWs = c :: t := by
  simp [List.dropWhile_cons, hc]

theorem joinSp_cons_ne (w : List Char) (ws : List (List Char)) (h : ws ≠ []) :
    joinSp (w :: ws) = w ++ ' ' :: joinSp ws := by
  cases ws with
  | nil => exact absurd rfl h
  | cons a l => rfl

theorem joinSp_head_struct (ws : List (List Char)) (hne : ws ≠ [])
    (h : ∀ w ∈ ws, w ≠ [] ∧ ∀ c ∈ w, isWs c = false) :
    ∃ c t, joinSp ws = c :: t ∧ isWs c = false := by
  cases ws with
  | nil => exact absurd rfl hne
  | cons w rest =>
    obtain ⟨hw, hwc⟩ := h w (List.mem_cons_self _ _)
    have hstep : ∃ t0, joinSp (w :: rest) = w ++ t0 := by
      cases rest with
      | nil => exact ⟨[], by simp [joinSp]⟩
      | cons a l => exact ⟨' ' :: joinSp (a :: l), rfl⟩
    obtain ⟨t0, ht0⟩ := hstep
    cases hw' : w with
    | nil => exact absurd hw' hw
    | cons c wt =>
      refine ⟨c, wt ++ t0, ?_, hwc c (by rw [hw']; exact List.mem_cons_self _ _)⟩
      rw [hw'] at ht0
      rw [ht0]
      rfl

theorem joinSp_reverse_struct (ws : List (List Char)) (hne : ws ≠ [])
    (h : ∀ w ∈ ws, w ≠ [] ∧ ∀ c ∈ w, isWs c = false) :
    ∃ c t, (joinSp ws).reverse = c :: t ∧ isWs c = false := by
  induction ws with
  | nil => exact absurd rfl hne
  | cons w rest ih =>
    obtain ⟨hw, hwc⟩ := h w (List.mem_cons_self _ _)
    cases rest with
    | nil =>
      cases hr : w.reverse with
      | nil => exact absurd (List.reverse_eq_nil_iff.mp hr) hw
      | cons c t =>
        refine ⟨c, t, by simpa [joinSp] using hr, ?_⟩
        refine hwc c (List.mem_reverse.mp ?_)
        rw [hr]
        exact List.mem_cons_self _ _
    | cons w2 rest2 =>
      obtain ⟨c, t, hct, hcw⟩ :=
        ih (by simp) (fun w' hw' => h w' (List.mem_cons_of_mem _ hw'))
      refine ⟨c, t ++ ' ' :: w.reverse, ?_, hcw⟩
      rw [joinSp_cons_ne w _ (by simp), List.reverse_append, List.reverse_cons,
        hct]
      simp

theorem pyStrip_joinSp (ws : List (List Char)) (hne : ws ≠ [])
    (h : ∀ w ∈ ws, w ≠ [] ∧ ∀ c ∈ w, isWs c = false) :
    pyStrip (joinSp ws) = joinSp ws := by
  obtain ⟨c, t, hct, hc⟩ := joinSp_head_struct ws hne h
  obtain ⟨c', t', hct', hc'⟩ := joinSp_reverse_struct ws hne h
  rw [pyStrip, hct, dropWhile_ws_cons_self c t hc, ← hct, hct',
    dropWhile_ws_cons_self c' t' hc', ← hct']
  exact List.reverse_reverse _

theorem joinSp_append (a b : List (List Char)) (ha : a ≠ []) (hb : b ≠ []) :
    joinSp (a ++ b) = joinSp a ++ ' ' :: joinSp b := by
  induction a with
  | nil => exact absurd rfl ha
  | cons w a ih =>
    cases a with
    | nil =>
      rw [List.cons_append, List.nil_append, joinSp_cons_ne w b hb]
      rfl
    | cons w2 a2 =>
      rw [List.cons_append, joinSp_cons_ne w _ (by simp),
        joinSp_cons_ne w (w2 :: a2) (by simp), ih (by simp)]
      simp

theorem joinSp_map_joinSp (gs : List (List (List Char)))
    (h : ∀ g ∈ gs, g ≠ []) :
    joinSp (gs.map joinSp) = joinSp gs.flatten := by
  induction gs with
  | nil => rfl
  | cons g rest ih =>
    cases rest with
    | nil => simp [joinSp]
    | cons g2 rest2 =>
      have hg : g ≠ [] := h g (List.mem_cons_self _ _)
      have hg2 : g2 ≠ [] := h g2 (by simp)
      have hflat : (g2 :: rest2).flatten ≠ [] := by
        rw [List.flatten_cons]
        cases hg2' : g2 with
        | nil => exact absurd hg2' hg2
        | cons x xs => simp
      have hR : joinSp ((g :: g2 :: rest2).flatten) =
          joinSp g ++ ' ' :: joinSp ((g2 :: rest2).flatten) := by
        rw [List.flatten_cons]
        exact joinSp_append g _ hg hflat
      rw [List.map_cons, joinSp_cons_ne _ _ (by simp),
        ih (fun g' hg' => h g' (List.mem_cons_of_mem _ hg')), hR]

theorem flatten_slices (m : Nat) (hm : 0 < m) (k : Nat) :
    ∀ ws : List (List Char), ws.length ≤ k * m →
      (((List.range k).map (fun i => ((ws.drop (i * m)).take m))).flatten = ws) := by
  induction k with
  | zero =>
    intro ws hlen
    simp only [Nat.zero_mul, Nat.le_zero] at hlen
    rw [List.length_eq_zero] at hlen
    subst hlen
    rfl
  | succ k ih =>
    intro ws hlen
    rw [List.range_succ_eq_map, List.map_cons, List.map_map, List.flatten_cons]
    simp only [Nat.zero_mul, List.drop_zero]
    have hmap : (List.range k).map ((fun i => ((ws.drop (i * m)).take m)) ∘ Nat.succ) =
        (List.range k).map (fun i => (((ws.drop m).drop (i * m)).take m)) := by
      refine List.map_congr_left ?_
      intro i _
      simp only [Function.comp_apply]
      rw [List.drop_drop]
      congr 2
      rw [Nat.succ_mul]
      omega
    rw [hmap, ih (ws.drop m) ?_, List.take_append_drop]
    have hsm : (k + 1) * m = k * m + m := Nat.succ_mul k m
    rw [hsm] at hlen
    rw [List.length_drop]
    omega

theorem le_ceilDiv_mul (n m : Nat) (hm : 0 < m) : n ≤ ceilDiv n m * m := by
  rw [ceilDiv]
  have hdm := Nat.div_add_mod (n + m - 1) m
  have hml : (n + m - 1) % m < m := Nat.mod_lt _ hm
  rw [mul_comm]
  omega

/-- Claim C7 (amended): `chunk_text` is deterministic (a pure function of
its arguments) and idempotent — re-chunking any output chunk with the same
`max_words ≥ 1` returns exactly that chunk.  The round-trip property —
rejoining the output chunks with single spaces recovers the
whitespace-normalised original — holds exactly when no slice is dropped by
the 50-character floor; otherwise dropped slices lose text (see the
counterexample). -/
theorem c7_chunk_idempotent (text : List Char) (m : Nat) (hm : 1 ≤ m)
    (_hwpos : 0 < (words text).length) :
    (∀ c ∈ chunk_text text m, chunk_text c m = [c]) ∧
    ((∀ c ∈ (rangeStep (words text).length m).map
        (fun i => pyStrip (joinSp (((words text).drop i).take m))), 50 < c.length) →
      joinSp (chunk_text text m) = joinSp (words text)) := by
  constructor
  · intro c hc
    rw [chunk_text, List.mem_filter] at hc
    obtain ⟨hcmem, hclen'⟩ := hc
    have hclen : 50 < c.length := by simpa using hclen'
    rw [List.mem_map] at hcmem
    obtain ⟨i, hi, hfi⟩ := hcmem
    have hggood : ∀ w ∈ ((words text).drop i).take m,
        w ≠ [] ∧ ∀ c' ∈ w, isWs c' = false := fun w hwm =>
      words_good text w (List.mem_of_mem_drop (List.mem_of_mem_take hwm))
    have hgne : ((words text).drop i).take m ≠ [] := by
      intro hgnil
      rw [hgnil] at hfi
      rw [← hfi] at hclen
      simp [joinSp, pyStrip] at hclen
    have hceq : c = joinSp (((words text).drop i).take m) := by
      rw [← hfi, pyStrip_joinSp _ hgne hggood]
    have hwc : words c = ((words text).drop i).take m := by
      rw [hceq]
      exact words_joinSp _ hggood
    have h1 : 0 < (words c).length := by
      rw [hwc]
      exact List.length_pos.mpr hgne
    have h2 : (words c).length ≤ m := by
      rw [hwc]
      exact List.length_take_le _ _
    have h3 : 50 < (pyStrip (joinSp (words c))).length := by
      rw [hwc, pyStrip_joinSp _ hgne hggood, ← hceq]
      exact hclen
    rw [chunk_text_single c m h1 h2 h3, hwc, pyStrip_joinSp _ hgne hggood, ← hceq]
  · intro hall
    have hfe : chunk_text text m = (rangeStep (words text).length m).map
        (fun i => pyStrip (joinSp (((words text).drop i).take m))) := by
      rw [chunk_text]
      refine List.filter_eq_self.mpr ?_
      intro a ha
      exact decide_eq_true (hall a ha)
    have hne : ∀ i ∈ rangeStep (words text).length m,
        ((words text).drop i).take m ≠ [] := by
      intro i hi hnil
      have h0 := hall (pyStrip (joinSp (((words text).drop i).take m)))
        (List.mem_map_of_mem _ hi)
      rw [hnil] at h0
      simp [joinSp, pyStrip] at h0
    have hstrip : ∀ i ∈ rangeStep (words text).length m,
        pyStrip (joinSp (((words text).drop i).take m)) =
          joinSp (((words text).drop i).take m) := by
      intro i hi
      exact pyStrip_joinSp _ (hne i hi)
        (fun w hwm => words_good text w (List.mem_of_mem_drop (List.mem_of_mem_take hwm)))
    have hgne : ∀ g ∈ (rangeStep (words text).length m).map
        (fun i => ((words text).drop i).take m), g ≠ [] := by
      intro g hg
      rw [List.mem_map] at hg
      obtain ⟨i, hi, hgi⟩ := hg
      rw [← hgi]
      exact hne i hi
    have hsplit : (rangeStep (words text).length m).map
        (fun i => joinSp (((words text).drop i).take m)) =
        ((rangeStep (words text).length m).map
          (fun i => ((words text).drop i).take m)).map joinSp := by
      rw [List.map_map]
      rfl
    have hflat : ((rangeStep (words text).length m).map
        (fun i => ((words text).drop i).take m)).flatten = words text := by
      rw [rangeStep, if_neg (by omega), List.map_map]
      exact flatten_slices m (by omega) _ (words text) (le_ceilDiv_mul _ _ (by omega))
    rw [hfe, List.map_congr_left hstrip, hsplit, joinSp_map_joinSp _ hgne, hflat]

/-- Witness for C7 (amended) at a 60-character single-word text. -/
theorem c7_chunk_idempotent_witness :
    chunk_text (List.replicate 60 'a') 500 = [List.replicate 60 'a'] ∧
    joinSp (chunk_text (List.replicate 60 'a') 500) =
      joinSp (words (List.replicate 60 'a')) := by
  have h := c7_chunk_idempotent (List.replicate 60 'a') 500 (by decide) (by decide)
  exact ⟨h.1 (List.replicate 60 'a') (by decide), h.2 (by decide)⟩

/-- Counterexample to C7 as stated: `"hi"` has word count 1 > 0, yet
`chunk_text "hi" 500 = []` — the 50-character floor drops the only chunk —
so rejoining the output chunks yields the empty string, not the trimmed
original. -/
theorem c7_counterexample :
    0 < (words "hi".toList).length ∧
    chunk_text "hi".toList 500 = [] ∧
    joinSp (chunk_text "hi".toList 500) ≠ pyStrip "hi".toList := by
  refine ⟨by decide, by decide, by decide⟩

/-!
## C1: interrupted and resumed builds
-/

theorem buildLoop_done (env : Env) (f : Nat) (d : Disk)
    (h : d.progress.total_batches ≤ d.progress.completed_batches) :
    buildLoop env f d = (d, []) := by
  cases f with
  | zero => rfl
  | succ f => rw [buildLoop, if_pos h]

theorem buildLoop_comp (env : Env) (hclean : ∀ b, env.persistFails b = false)
    (f f' : Nat) (d : Disk) :
    (buildLoop env f' (buildLoop env f d).1).1 = (buildLoop env (f + f') d).1 ∧
    (buildLoop env (f + f') d).2 =
      (buildLoop env f d).2 ++ (buildLoop env f' (buildLoop env f d).1).2 := by
  induction f generalizing d with
  | zero =>
    rw [Nat.zero_add]
    exact ⟨rfl, rfl⟩
  | succ f ih =>
    have hsf : f + 1 + f' = (f + f') + 1 := by omega
    rw [hsf]
    by_cases hdone : d.progress.total_batches ≤ d.progress.completed_batches
    · rw [buildLoop_done env (f + 1) d hdone, buildLoop_done env ((f + f') + 1) d hdone]
      dsimp only
      rw [buildLoop_done env f' d hdone]
      exact ⟨rfl, rfl⟩
    · have hpf : ¬ (env.persistFails d.progress.completed_batches = true) := by
        rw [hclean]
        exact Bool.false_ne_true
      simp only [buildLoop, if_neg hdone, if_neg hpf]
      split
      · dsimp only
        refine ⟨(ih _).1, ?_⟩
        rw [List.cons_append]
        exact congrArg (d.progress.completed_batches :: ·) (ih _).2
      · dsimp only
        refine ⟨(ih _).1, ?_⟩
        rw [List.cons_append]
        exact congrArg (d.progress.completed_batches :: ·) (ih _).2

theorem buildLoop_completed (env : Env) (hclean : ∀ b, env.persistFails b = false)
    (f : Nat) (d : Disk)
    (hle : d.progress.completed_batches ≤ d.progress.total_batches) :
    (buildLoop env f d).1.progress.completed_batches =
      min (d.progress.completed_batches + f) d.progress.total_batches := by
  induction f generalizing d with
  | zero =>
    simp only [buildLoop]
    omega
  | succ f ih =>
    by_cases hdone : d.progress.total_batches ≤ d.progress.completed_batches
    · rw [buildLoop_done env _ _ hdone]
      dsimp only
      omega
    · have hpf : ¬ (env.persistFails d.progress.completed_batches = true) := by
        rw [hclean]
        exact Bool.false_ne_true
      simp only [buildLoop, if_neg hdone, if_neg hpf]
      split
      · dsimp only
        rw [ih _ (by dsimp only; omega)]
        dsimp only
        omega
      · dsimp only
        rw [ih _ (by dsimp only; omega)]
        dsimp only
        omega

theorem buildLoop_trace (env : Env) (hclean : ∀ b, env.persistFails b = false)
    (f : Nat) (d : Disk)
    (hle : d.progress.completed_batches ≤ d.progress.total_batches) :
    (buildLoop env f d).2 =
      List.range' d.progress.completed_batches
        (min f (d.progress.total_batches - d.progress.completed_batches)) := by
  induction f generalizing d with
  | zero => simp [buildLoop]
  | succ f ih =>
    by_cases hdone : d.progress.total_batches ≤ d.progress.completed_batches
    · rw [buildLoop_done env _ _ hdone]
      have h0 : min (f + 1) (d.progress.total_batches - d.progress.completed_batches) = 0 := by
        omega
      rw [h0]
      rfl
    · have hpf : ¬ (env.persistFails d.progress.completed_batches = true) := by
        rw [hclean]
        exact Bool.false_ne_true
      have hmin : min (f + 1) (d.progress.total_batches - d.progress.completed_batches) =
          (min f (d.progress.total_batches - (d.progress.completed_batches + 1))) + 1 := by
        omega
      simp only [buildLoop, if_neg hdone, if_neg hpf]
      split
      · dsimp only
        rw [ih _ (by dsimp only; omega)]
        dsimp only
        rw [hmin, List.range'_succ]
      · dsimp only
        rw [ih _ (by dsimp only; omega)]
        dsimp only
        rw [hmin, List.range'_succ]

theorem processLines_ids (lines : List (Option Json)) :
    ∀ cur s e cid b : Nat,
      (processLines lines cur s e cid b).map Chunk.id =
        List.range' cid (processLines lines cur s e cid b).length := by
  induction lines with
  | nil => intro cur s e cid b; rfl
  | cons l rest ih =>
    intro cur s e cid b
    simp only [processLines]
    split
    · exact ih _ _ _ _ _
    · split
      · rfl
      · cases l with
        | none => exact ih _ _ _ _ _
        | some j =>
          dsimp only
          split
          · rw [List.map_append, mkChunks_ids, ih _ _ _ _ _, List.length_append,
              mkChunks_length]
            simpa [Nat.add_comm] using List.range'_append_1 cid _ _
          · exact ih _ _ _ _ _

theorem processBatchLinesE_ids (env : Env) (b s : Nat) :
    (processBatchLinesE env b s).map Chunk.id =
      List.range' s (processBatchLinesE env b s).length := by
  rw [processBatchLinesE]
  split
  · exact processLines_ids _ _ _ _ _ _
  · rfl

theorem load_foldl_congr (d d' : Disk) (l : List Nat) :
    (∀ b ∈ l, d.batchFiles b = d'.batchFiles b) →
    (∀ b ∈ l, d.embFiles b = d'.embFiles b) →
    ∀ acc, l.foldl (loadStep d) acc = l.foldl (loadStep d') acc := by
  induction l with
  | nil =>
    intro _ _ acc
    rfl
  | cons b l ih =>
    intro hbf hef acc
    simp only [List.foldl_cons]
    have hstep : loadStep d acc b = loadStep d' acc b := by
      simp only [loadStep, hbf b (List.mem_cons_self _ _), hef b (List.mem_cons_self _ _)]
    rw [hstep]
    exact ih (fun x hx => hbf x (List.mem_cons_of_mem _ hx))
      (fun x hx => hef x (List.mem_cons_of_mem _ hx)) _

theorem readSubBatches_written (subs : List SubFile) :
    readSubBatches (subs.map (fun sf => some (.ok sf.1, .ok sf.2))) =
      .ok ((subs.map (fun sf => sf.1)).flatten) := by
  induction subs with
  | nil => rfl
  | cons sf rest ih =>
    simp only [List.map_cons, readSubBatches, ih, List.flatten_cons]

theorem buildLoop_files_ids (env : Env) (f : Nat) :
    ∀ d : Disk,
      (∀ b, d.progress.completed_batches ≤ b → d.batchFiles b = none) →
      (∀ b, d.progress.completed_batches ≤ b → d.embFiles b = []) →
      (∃ pr : List Chunk × List Vec, load_all_batches d = .ok pr ∧
        pr.1.map Chunk.id = List.range d.progress.total_chunks_processed) →
      ((∀ b, (buildLoop env f d).1.progress.completed_batches ≤ b →
          (buildLoop env f d).1.batchFiles b = none) ∧
       (∀ b, (buildLoop env f d).1.progress.completed_batches ≤ b →
          (buildLoop env f d).1.embFiles b = []) ∧
       (∃ pr : List Chunk × List Vec,
          load_all_batches (buildLoop env f d).1 = .ok pr ∧
          pr.1.map Chunk.id =
            List.range (buildLoop env f d).1.progress.total_chunks_processed)) := by
  induction f with
  | zero => exact fun d h1 hE h2 => ⟨h1, hE, h2⟩
  | succ f ih =>
    intro d h1 hE h2
    obtain ⟨pr, hpr, hprid⟩ := h2
    by_cases hdone : d.progress.total_batches ≤ d.progress.completed_batches
    · rw [buildLoop, if_pos hdone]
      exact ⟨h1, hE, ⟨pr, hpr, hprid⟩⟩
    · simp only [buildLoop, if_neg hdone]
      split
      · -- empty batch: marked complete, nothing written
        dsimp only
        refine ih _
          (fun b hb => h1 b (by
            have hb' : d.progress.completed_batches + 1 ≤ b := hb
            omega))
          (fun b hb => hE b (by
            have hb' : d.progress.completed_batches + 1 ≤ b := hb
            omega)) ?_
        have hload :
            load_all_batches
              { d with progress :=
                { d.progress with
                    completed_batches := d.progress.completed_batches + 1 } } =
            load_all_batches d := by
          show (List.range (d.progress.completed_batches + 1)).foldl (loadStep d)
              (.ok ([], [])) =
            (List.range d.progress.completed_batches).foldl (loadStep d) (.ok ([], []))
          rw [List.range_succ, List.foldl_append]
          simp only [List.foldl_cons, List.foldl_nil]
          rw [show (List.range d.progress.completed_batches).foldl (loadStep d)
              (.ok ([], [])) = .ok pr from hpr]
          simp only [loadStep]
          rw [h1 _ (le_refl _)]
        rw [hload]
        exact ⟨pr, hpr, hprid⟩
      · split
        · -- persistence failure: disk unchanged, loop breaks
          exact ⟨h1, hE, ⟨pr, hpr, hprid⟩⟩
        · -- full batch: chunk file and sub-batch files written, progress advanced
          dsimp only
          refine ih _ ?_ ?_ ?_
          · intro b hb
            have hb' : d.progress.completed_batches + 1 ≤ b := hb
            show (if b = d.progress.completed_batches then
                some (processBatchLinesE env d.progress.completed_batches
                  d.progress.total_chunks_processed)
              else d.batchFiles b) = none
            rw [if_neg (by omega)]
            exact h1 b (by omega)
          · intro b hb
            have hb' : d.progress.completed_batches + 1 ≤ b := hb
            show (if b = d.progress.completed_batches then
                writeSubs (d.embFiles b)
                  (process_batch_embeddings env
                    (processBatchLinesE env d.progress.completed_batches
                      d.progress.total_chunks_processed))
              else d.embFiles b) = []
            rw [if_neg (by omega)]
            exact hE b (by omega)
          · have hembc : d.embFiles d.progress.completed_batches = [] :=
              hE _ (le_refl _)
            have hcongr :
                (List.range d.progress.completed_batches).foldl
                  (loadStep
                    { progress :=
                        { completed_batches := d.progress.completed_batches + 1,
                          total_batches := d.progress.total_batches,
                          total_chunks_processed := d.progress.total_chunks_processed +
                            (processBatchLinesE env d.progress.completed_batches
                              d.progress.total_chunks_processed).length,
                          total_embeddings_created := d.progress.total_embeddings_created +
                            embeddingsCreated
                              (process_batch_embeddings env
                                (processBatchLinesE env d.progress.completed_batches
                                  d.progress.total_chunks_processed)) },
                      batchFiles := fun n =>
                        if n = d.progress.completed_batches then
                          some (processBatchLinesE env d.progress.completed_batches
                            d.progress.total_chunks_processed)
                        else d.batchFiles n,
                      embFiles := fun n =>
                        if n = d.progress.completed_batches then
                          writeSubs (d.embFiles n)
                            (process_batch_embeddings env
                              (processBatchLinesE env d.progress.completed_batches
                                d.progress.total_chunks_processed))
                        else d.embFiles n })
                  (.ok ([], [])) =
                (List.range d.progress.completed_batches).foldl (loadStep d)
                  (.ok ([], [])) := by
              refine load_foldl_congr _ _ _ ?_ ?_ _
              · intro b hb
                rw [List.mem_range] at hb
                show (if b = d.progress.completed_batches then
                    some (processBatchLinesE env d.progress.completed_batches
                      d.progress.total_chunks_processed)
                  else d.batchFiles b) = d.batchFiles b
                rw [if_neg (by omega)]
              · intro b hb
                rw [List.mem_range] at hb
                show (if b = d.progress.completed_batches then
                    writeSubs (d.embFiles b)
                      (process_batch_embeddings env
                        (processBatchLinesE env d.progress.completed_batches
                          d.progress.total_chunks_processed))
                  else d.embFiles b) = d.embFiles b
                rw [if_neg (by omega)]
            have hload :
                load_all_batches
                  { progress :=
                      { completed_batches := d.progress.completed_batches + 1,
                        total_batches := d.progress.total_batches,
                        total_chunks_processed := d.progress.total_chunks_processed +
                          (processBatchLinesE env d.progress.completed_batches
                            d.progress.total_chunks_processed).length,
                        total_embeddings_created := d.progress.total_embeddings_created +
                          embeddingsCreated
                            (process_batch_embeddings env
                              (processBatchLinesE env d.progress.completed_batches
                                d.progress.total_chunks_processed)) },
                    batchFiles :=
                      (save_embedding_batches
                        (save_batch_data d d.progress.completed_batches
                          (processBatchLinesE env d.progress.completed_batches
                            d.progress.total_chunks_processed))
                        d.progress.completed_batches
                        (process_batch_embeddings env
                          (processBatchLinesE env d.progress.completed_batches
                            d.progress.total_chunks_processed))).batchFiles,
                    embFiles :=
                      (save_embedding_batches
                        (save_batch_data d d.progress.completed_batches
                          (processBatchLinesE env d.progress.completed_batches
                            d.progress.total_chunks_processed))
                        d.progress.completed_batches
                        (process_batch_embeddings env
                          (processBatchLinesE env d.progress.completed_batches
                            d.progress.total_chunks_processed))).embFiles } =
                .ok (pr.1 ++ processBatchLinesE env d.progress.completed_batches
                      d.progress.total_chunks_processed,
                    pr.2 ++ ((process_batch_embeddings env
                      (processBatchLinesE env d.progress.completed_batches
                        d.progress.total_chunks_processed)).map
                          (fun sf => sf.1)).flatten) := by
              rw [load_all_batches]
              dsimp only [save_embedding_batches, save_batch_data]
              rw [List.range_succ, List.foldl_append, hcongr]
              simp only [List.foldl_cons, List.foldl_nil]
              rw [show (List.range d.progress.completed_batches).foldl (loadStep d)
                  (.ok ([], [])) = .ok pr from hpr]
              simp only [loadStep, if_true]
              rw [hembc, writeSubs]
              simp only [List.drop_nil, List.append_nil]
              rw [readSubBatches_written]
            refine ⟨_, hload, ?_⟩
            rw [List.map_append, hprid,
              processBatchLinesE_ids env d.progress.completed_batches
                d.progress.total_chunks_processed]
            rw [List.range_eq_range', List.range_eq_range']
            simpa [Nat.add_comm] using List.range'_append_1 0 _ _

/-- Claim C1: with a fault-free environment, if a build is interrupted right
after batch `i`'s data was fully persisted and its `completed_batches`
increment saved (the persisted state a restart sees; reruns overwrite their
own files, so a partially-written batch `i+1` is subsumed), then restarting
the build processes exactly the remaining batches `i+1 .. T-1`, each once,
in strictly increasing order, ends in the same disk state as an
uninterrupted run, and the assembled index has the same chunk count and the
same chunk texts, with no duplicate chunk ids. -/
theorem c1_resume_equivalence (env : Env) (i T : Nat)
    (hcount : env.countReadOk = true)
    (hclean : ∀ b, env.persistFails b = false)
    (hT : T = ceilDiv env.corpus.length env.batchSize)
    (hi : i + 1 ≤ T) :
    (build_index_in_batches env
        (buildLoop env (i + 1) (initTotals env freshDisk)).1).2 =
      List.range' (i + 1) (T - (i + 1)) ∧
    ((build_index_in_batches env
        (buildLoop env (i + 1) (initTotals env freshDisk)).1).2).Nodup ∧
    List.Pairwise (· < ·)
      (build_index_in_batches env
        (buildLoop env (i + 1) (initTotals env freshDisk)).1).2 ∧
    (build_index_in_batches env
        (buildLoop env (i + 1) (initTotals env freshDisk)).1).1 =
      (build_index_in_batches env freshDisk).1 ∧
    load_all_batches (build_index_in_batches env
        (buildLoop env (i + 1) (initTotals env freshDisk)).1).1 =
      load_all_batches (build_index_in_batches env freshDisk).1 ∧
    (∃ cs vs, load_all_batches (build_index_in_batches env freshDisk).1 =
        .ok (cs, vs) ∧ (cs.map Chunk.id).Nodup) := by
  have hd0t : (initTotals env freshDisk).progress.total_batches = T := by
    rw [initTotals, if_pos (show freshDisk.progress.total_batches = 0 from rfl)]
    show ceilDiv (count_total_lines env) env.batchSize = T
    rw [count_total_lines, if_pos hcount, hT]
  have hd0c : (initTotals env freshDisk).progress.completed_batches = 0 := by
    rw [initTotals, if_pos (show freshDisk.progress.total_batches = 0 from rfl)]
    rfl
  have hle0 : (initTotals env freshDisk).progress.completed_batches ≤
      (initTotals env freshDisk).progress.total_batches := by
    rw [hd0c]
    omega
  have hdIt : (buildLoop env (i + 1) (initTotals env freshDisk)).1.progress.total_batches = T := by
    rw [buildLoop_total_batches, hd0t]
  have hdIc : (buildLoop env (i + 1)
      (initTotals env freshDisk)).1.progress.completed_batches = i + 1 := by
    rw [buildLoop_completed env hclean _ _ hle0, hd0c, hd0t]
    omega
  have hinitI : initTotals env (buildLoop env (i + 1) (initTotals env freshDisk)).1 =
      (buildLoop env (i + 1) (initTotals env freshDisk)).1 := by
    rw [initTotals, if_neg (by rw [hdIt]; omega)]
  have hres : build_index_in_batches env
      (buildLoop env (i + 1) (initTotals env freshDisk)).1 =
      buildLoop env (T - (i + 1)) (buildLoop env (i + 1) (initTotals env freshDisk)).1 := by
    simp only [build_index_in_batches]
    rw [hinitI, hdIt, hdIc]
  have hfull : build_index_in_batches env freshDisk =
      buildLoop env T (initTotals env freshDisk) := by
    simp only [build_index_in_batches]
    rw [hd0t, hd0c, Nat.sub_zero]
  have htrace : (buildLoop env (T - (i + 1))
      (buildLoop env (i + 1) (initTotals env freshDisk)).1).2 =
      List.range' (i + 1) (T - (i + 1)) := by
    rw [buildLoop_trace env hclean _ _ (by rw [hdIt, hdIc]; omega), hdIc, hdIt,
      min_self]
  have hdisk : (buildLoop env (T - (i + 1))
      (buildLoop env (i + 1) (initTotals env freshDisk)).1).1 =
      (buildLoop env T (initTotals env freshDisk)).1 := by
    have hfuel : (i + 1) + (T - (i + 1)) = T := by omega
    rw [(buildLoop_comp env hclean (i + 1) (T - (i + 1)) (initTotals env freshDisk)).1,
      hfuel]
  have hids := (buildLoop_files_ids env T (initTotals env freshDisk)
      (fun b _ => rfl) (fun b _ => rfl) ⟨([], []), rfl, rfl⟩).2.2
  refine ⟨?_, ?_, ?_, ?_, ?_, ?_⟩
  · rw [hres]
    exact htrace
  · rw [hres, htrace]
    exact List.nodup_range' _ _
  · rw [hres, htrace]
    exact List.pairwise_lt_range' _ _
  · rw [hres, hfull, hdisk]
  · rw [hres, hfull, hdisk]
  · rw [hfull]
    obtain ⟨pr, hpr, hprid⟩ := hids
    refine ⟨pr.1, pr.2, hpr, ?_⟩
    rw [hprid]
    exact List.nodup_range _

/-- Witness for C1: a two-line corpus with batch size 1, interrupted after
batch 0; the resumed run processes exactly batch 1 and matches the
uninterrupted run. -/
theorem c1_resume_equivalence_witness :
    (build_index_in_batches
        ⟨[some (.obj (.cons "content".toList (.str (List.replicate 60 'a')) .nil)),
          some (.obj (.cons "content".toList (.str (List.replicate 60 'b')) .nil))], 1,
          fun ts => some (ts.map (fun _ => ([] : Vec))), fun _ => none, true,
          fun _ => true, fun _ => false⟩
        (buildLoop
          ⟨[some (.obj (.cons "content".toList (.str (List.replicate 60 'a')) .nil)),
            some (.obj (.cons "content".toList (.str (List.replicate 60 'b')) .nil))], 1,
            fun ts => some (ts.map (fun _ => ([] : Vec))), fun _ => none, true,
            fun _ => true, fun _ => false⟩ 1
          (initTotals
            ⟨[some (.obj (.cons "content".toList (.str (List.replicate 60 'a')) .nil)),
              some (.obj (.cons "content".toList (.str (List.replicate 60 'b')) .nil))], 1,
              fun ts => some (ts.map (fun _ => ([] : Vec))), fun _ => none, true,
              fun _ => true, fun _ => false⟩ freshDisk)).1).2 = List.range' 1 1 ∧
    (build_index_in_batches
        ⟨[some (.obj (.cons "content".toList (.str (List.replicate 60 'a')) .nil)),
          some (.obj (.cons "content".toList (.str (List.replicate 60 'b')) .nil))], 1,
          fun ts => some (ts.map (fun _ => ([] : Vec))), fun _ => none, true,
          fun _ => true, fun _ => false⟩
        (buildLoop
          ⟨[some (.obj (.cons "content".toList (.str (List.replicate 60 'a')) .nil)),
            some (.obj (.cons "content".toList (.str (List.replicate 60 'b')) .nil))], 1,
            fun ts => some (ts.map (fun _ => ([] : Vec))), fun _ => none, true,
            fun _ => true, fun _ => false⟩ 1
          (initTotals
            ⟨[some (.obj (.cons "content".toList (.str (List.replicate 60 'a')) .nil)),
              some (.obj (.cons "content".toList (.str (List.replicate 60 'b')) .nil))], 1,
              fun ts => some (ts.map (fun _ => ([] : Vec))), fun _ => none, true,
              fun _ => true, fun _ => false⟩ freshDisk)).1).1 =
      (build_index_in_batches
        ⟨[some (.obj (.cons "content".toList (.str (List.replicate 60 'a')) .nil)),
          some (.obj (.cons "content".toList (.str (List.replicate 60 'b')) .nil))], 1,
          fun ts => some (ts.map (fun _ => ([] : Vec))), fun _ => none, true,
          fun _ => true, fun _ => false⟩ freshDisk).1 ∧
    load_all_batches
        (build_index_in_batches
          ⟨[some (.obj (.cons "content".toList (.str (List.replicate 60 'a')) .nil)),
            some (.obj (.cons "content".toList (.str (List.replicate 60 'b')) .nil))], 1,
            fun ts => some (ts.map (fun _ => ([] : Vec))), fun _ => none, true,
            fun _ => true, fun _ => false⟩
          (buildLoop
            ⟨[some (.obj (.cons "content".toList (.str (List.replicate 60 'a')) .nil)),
              some (.obj (.cons "content".toList (.str (List.replicate 60 'b')) .nil))], 1,
              fun ts => some (ts.map (fun _ => ([] : Vec))), fun _ => none, true,
              fun _ => true, fun _ => false⟩ 1
            (initTotals
              ⟨[some (.obj (.cons "content".toList (.str (List.replicate 60 'a')) .nil)),
                some (.obj (.cons "content".toList (.str (List.replicate 60 'b')) .nil))], 1,
                fun ts => some (ts.map (fun _ => ([] : Vec))), fun _ => none, true,
                fun _ => true, fun _ => false⟩ freshDisk)).1).1 =
      load_all_batches
        (build_index_in_batches
          ⟨[some (.obj (.cons "content".toList (.str (List.replicate 60 'a')) .nil)),
            some (.obj (.cons "content".toList (.str (List.replicate 60 'b')) .nil))], 1,
            fun ts => some (ts.map (fun _ => ([] : Vec))), fun _ => none, true,
            fun _ => true, fun _ => false⟩ freshDisk).1 := by
  obtain ⟨h1, h2, h3, h4, h5, h6⟩ :=
    c1_resume_equivalence
      ⟨[some (.obj (.cons "content".toList (.str (List.replicate 60 'a')) .nil)),
        some (.obj (.cons "content".toList (.str (List.replicate 60 'b')) .nil))], 1,
        fun ts => some (ts.map (fun _ => ([] : Vec))), fun _ => none, true,
        fun _ => true, fun _ => false⟩ 0 2 rfl (fun _ => rfl) (by decide) (by decide)
  exact ⟨h1, h4, h5⟩
